import Mathlib

/-!
Shallow embedding of the detection decode / NMS / rescale pipeline and of the
letterbox resize implemented in `src/deploy/yolov8_onnx_live.py`, together
with proofs checking the natural-language specification against it.
Real-valued quantities (scores, box coordinates, scale factors) are modelled
by `Rat` with exact arithmetic; Python `int(x)` (truncation toward zero) is
modelled by `pyInt`; the greedy suppression follows OpenCV's `NMSFast_`
(stable descending sort, strict score filter, keep while overlap stays at or
below the threshold).
-/

namespace Yolo

/-- Python `int(x)` applied to a real value: truncation toward zero.  On a
rational `q = num / den` this is the truncating integer division of the
numerator by the denominator. -/
def pyInt (q : Rat) : Int := q.num.tdiv q.den

/-- One row of the raw output tensor: four box parameters in canvas pixel
units (`outputs[i][0..3]`, interpreted as center-x, center-y, width, height)
followed by the per-class confidence scores (`outputs[i][4:]`). -/
structure Row where
  cx : Rat
  cy : Rat
  w : Rat
  h : Rat
  scores : List Rat
deriving DecidableEq

/-- `numpy.amax` of a score list (with junk value `0` on the empty list,
which a real model output never produces). -/
def amax : List Rat → Rat
  | [] => 0
  | x :: xs => xs.foldl max x

/-- `numpy.argmax` of a score list: the index of the first occurrence of the
maximum (first index wins ties). -/
def argmaxIdx : List Rat → Nat
  | [] => 0
  | [_] => 0
  | x :: y :: xs => if x < amax (y :: xs) then argmaxIdx (y :: xs) + 1 else 0

/-- A decoded and already rescaled detection, as assembled by the decode loop
of `ONNXDetect.__call__`: the `[left, top, width, height]` Python ints, the
maximal class score and the class index. -/
structure Det where
  left : Int
  top : Int
  width : Int
  height : Int
  score : Rat
  classId : Nat
deriving DecidableEq

/-- Lines 62-73 of `__call__` for one row: the truncated rescaled box, the
maximal class score and the argmax class index. -/
def emitDet (scale : Rat) (r : Row) : Det where
  left := pyInt ((r.cx - r.w / 2) / scale)
  top := pyInt ((r.cy - r.h / 2) / scale)
  width := pyInt (r.w / scale)
  height := pyInt (r.h / scale)
  score := amax r.scores
  classId := argmaxIdx r.scores

/-- The decode loop (lines 49-73): a row contributes a detection exactly when
its maximal class score reaches the confidence threshold; the output order
follows the row order. -/
def decodeRescale (conf scale : Rat) : List Row → List Det
  | [] => []
  | r :: rs =>
      if conf ≤ amax r.scores then emitDet scale r :: decodeRescale conf scale rs
      else decodeRescale conf scale rs

/-- Box area `width * height` (OpenCV `Rect2d::area`). -/
def area (d : Det) : Int := d.width * d.height

/-- Area of the OpenCV rectangle intersection (`operator &`): zero when one
of the intersection sides is nonpositive. -/
def interArea (a b : Det) : Int :=
  let iw := min (a.left + a.width) (b.left + b.width) - max a.left b.left
  let ih := min (a.top + a.height) (b.top + b.height) - max a.top b.top
  if iw ≤ 0 ∨ ih ≤ 0 then 0 else iw * ih

/-- OpenCV `rectOverlap = 1 - jaccardDistance`: the IoU of the two boxes,
with the degenerate guard returning full overlap when the two areas sum to
nothing. -/
def overlap (a b : Det) : Rat :=
  if area a + area b ≤ 0 then 1
  else (interArea a b : Rat) / ((area a : Rat) + (area b : Rat) - (interArea a b : Rat))

/-- The greedy suppression loop of OpenCV `NMSFast_` on detection values: a
candidate is appended to the kept list when its overlap with every
previously kept box stays at or below the threshold. -/
def nmsGreedy (thr : Rat) : List Det → List Det → List Det
  | [], kept => kept
  | c :: rest, kept =>
      if kept.all fun k => decide (overlap c k ≤ thr) then
        nmsGreedy thr rest (kept ++ [c])
      else nmsGreedy thr rest kept

/-- Descending-score order used by `SortScorePairDescend`. -/
def scoreGe (a b : Det) : Prop := b.score ≤ a.score

instance : DecidableRel scoreGe := fun a b =>
  inferInstanceAs (Decidable (b.score ≤ a.score))

instance : IsTotal Det scoreGe := ⟨fun a b => le_total b.score a.score⟩

instance : IsTrans Det scoreGe := ⟨fun _ _ _ hab hbc => le_trans hbc hab⟩

/-- Value-level `cv2.dnn.NMSBoxes`: keep the scores strictly above the score
threshold (`GetMaxScoreIndex`), stable-sort by descending score, run the
greedy suppression. -/
def pyNMS (scoreThr iouThr : Rat) (dets : List Det) : List Det :=
  nmsGreedy iouThr
    (List.insertionSort scoreGe (dets.filter fun c => decide (scoreThr < c.score))) []

/-- Default element used by positional lookup into the decoded list. -/
def detD : Det := ⟨0, 0, 0, 0, 0, 0⟩

/-- Positional lookup, as in `boxes[i]`, `scores[i]`, `class_indices[i]`. -/
def getD (dets : List Det) (i : Nat) : Det := dets.getD i detD

/-- Descending-score order on indices, as sorted by `GetMaxScoreIndex`. -/
def idxGe (dets : List Det) (i j : Nat) : Prop := scoreGe (getD dets i) (getD dets j)

instance (dets : List Det) : DecidableRel (idxGe dets) := fun i j =>
  inferInstanceAs (Decidable (scoreGe (getD dets i) (getD dets j)))

/-- The greedy suppression of `NMSFast_` on indices, looking the boxes up
positionally, exactly as the OpenCV implementation does. -/
def nmsGreedyIdx (thr : Rat) (dets : List Det) : List Nat → List Nat → List Nat
  | [], kept => kept
  | i :: rest, kept =>
      if kept.all fun k => decide (overlap (getD dets i) (getD dets k) ≤ thr) then
        nmsGreedyIdx thr dets rest (kept ++ [i])
      else nmsGreedyIdx thr dets rest kept

/-- `cv2.dnn.NMSBoxes` (line 76): the indices of the kept boxes, in pick
order. -/
def NMSBoxes (scoreThr iouThr : Rat) (dets : List Det) : List Nat :=
  nmsGreedyIdx iouThr dets
    (List.insertionSort (idxGe dets)
      ((List.range dets.length).filter fun i => decide (scoreThr < (getD dets i).score)))
    []

/-- `ONNXDetect.__call__` after inference (lines 44-86): decode and rescale
every row, apply `cv2.dnn.NMSBoxes`, assemble the kept entries by index. -/
def call (conf iou scale : Rat) (rows : List Row) : List Det :=
  let dets := decodeRescale conf scale rows
  (NMSBoxes conf iou dets).map (getD dets)

/-- Channelled pixel grid: row index, column index, channel to intensity. -/
abbrev Image : Type := Nat → Nat → Nat → Nat

/-- Python error kinds relevant to `resize`. -/
inductive Err where
  | zeroDivision
  | invalidInput
deriving DecidableEq

/-- Result of the letterbox transform: the square canvas and the scale. -/
structure LBResult where
  canvas : Image
  scale : Rat

/-- `ONNXDetect.resize` (lines 88-103).  `H`, `W` are the source shape, `s`
the square side, `resample` abstracts `cv2.resize`.  A zero dimension
surfaces exactly as Python's `ZeroDivisionError`: at the aspect-quotient
computation when `W = 0`, at the scale computation when `H = 0`; no
`InvalidInput` precondition check exists in the source. -/
def resize (resample : Image → Nat → Nat → Image) (img : Image) (H W s : Nat) :
    Except Err LBResult :=
  if W = 0 then .error .zeroDivision
  else if H = 0 then .error .zeroDivision
  else
    let asp : Rat := (H : Rat) / (W : Rat)
    let w : Nat := if 1 < asp then (⌊(s : Rat) / asp⌋).toNat else s
    let h : Nat := if 1 < asp then s else (⌊(s : Rat) * asp⌋).toNat
    let res := resample img w h
    .ok ⟨fun i j c => if i < h ∧ j < w then res i j c else 0, (h : Rat) / (H : Rat)⟩

/-- Scale component of a `resize` result (`0` when it failed). -/
def scaleOf : Except Err LBResult → Rat
  | .ok L => L.scale
  | .error _ => 0

/-- An all-black concrete image, used for concrete instantiations. -/
def img0 : Image := fun _ _ _ => 0

/-- A concrete stand-in resampler, used for concrete instantiations. -/
def res0 : Image → Nat → Nat → Image := fun img _ _ => img

/-- Modelled from the spec for the refinement comparison of the pipeline
order: a canvas-space Candidate (box still in canvas pixel units), per
section 3 of the spec. -/
structure Cand where
  cx : Rat
  cy : Rat
  w : Rat
  h : Rat
  score : Rat
  classId : Nat
deriving DecidableEq

/-- Modelled from the spec (section 4.2) for the refinement comparison: the
decoder emits canvas-space Candidates for the rows whose maximal score
reaches the confidence threshold, in row order. -/
def decodeSpec (conf : Rat) : List Row → List Cand
  | [] => []
  | r :: rs =>
      if conf ≤ amax r.scores then
        ⟨r.cx, r.cy, r.w, r.h, amax r.scores, argmaxIdx r.scores⟩ :: decodeSpec conf rs
      else decodeSpec conf rs

/-- Modelled from the spec (section 4.3): axis-aligned boxes derived by
`left = cx - w/2`, `top = cy - h/2`; IoU of the exact rational boxes, `0`
against a degenerate box unless the boxes are identical. -/
def specOverlap (a b : Cand) : Rat :=
  let al := a.cx - a.w / 2
  let at' := a.cy - a.h / 2
  let bl := b.cx - b.w / 2
  let bt := b.cy - b.h / 2
  if al = bl ∧ at' = bt ∧ a.w = b.w ∧ a.h = b.h then 1
  else
    let iw := min (al + a.w) (bl + b.w) - max al bl
    let ih := min (at' + a.h) (bt + b.h) - max at' bt
    let inter := if iw ≤ 0 ∨ ih ≤ 0 then 0 else iw * ih
    inter / (a.w * a.h + b.w * b.h - inter)

/-- Modelled from the spec: descending-score order on Candidates. -/
def candGe (a b : Cand) : Prop := b.score ≤ a.score

instance : DecidableRel candGe := fun a b =>
  inferInstanceAs (Decidable (b.score ≤ a.score))

/-- Modelled from the spec (section 4.3): greedy NMS in canvas space,
discarding a candidate when its IoU with a kept box reaches the threshold. -/
def specNMSGreedy (thr : Rat) : List Cand → List Cand → List Cand
  | [], kept => kept
  | c :: rest, kept =>
      if kept.all fun k => decide (specOverlap c k < thr) then
        specNMSGreedy thr rest (kept ++ [c])
      else specNMSGreedy thr rest kept

/-- Modelled from the spec (section 4.3): sort the candidates by descending
score and run the greedy canvas-space suppression. -/
def specNMS (thr : Rat) (cands : List Cand) : List Cand :=
  specNMSGreedy thr (List.insertionSort candGe cands) []

/-- Modelled from the spec (section 4.4): the coordinate rescaler, floor
rounding toward negative infinity, score and class copied unchanged. -/
def specRescale (scale : Rat) (c : Cand) : Det where
  left := ⌊(c.cx - c.w / 2) / scale⌋
  top := ⌊(c.cy - c.h / 2) / scale⌋
  width := ⌊c.w / scale⌋
  height := ⌊c.h / scale⌋
  score := c.score
  classId := c.classId

/-- Modelled from the spec (section 2, refinement claim): the composition
`rescale(nms(decode(raw)))`, suppression in canvas space first, rescaling
only the kept candidates. -/
def specPipeline (conf iou scale : Rat) (rows : List Row) : List Det :=
  (specNMS iou (decodeSpec conf rows)).map (specRescale scale)

/-! Helper lemmas about `pyInt`, `amax` and `argmaxIdx`. -/

theorem pyInt_nonneg_eq_floor (q : Rat) (h : 0 ≤ q) : pyInt q = ⌊q⌋ := by
  have hn : 0 ≤ q.num := Rat.num_nonneg.mpr h
  have hd : (0 : Int) ≤ (q.den : Int) := Int.ofNat_nonneg q.den
  rw [pyInt, Int.tdiv_eq_ediv hn hd, Rat.floor_def]

theorem pyInt_eq (q : Rat) : pyInt q = if 0 ≤ q then ⌊q⌋ else ⌈q⌉ := by
  by_cases h : 0 ≤ q
  · rw [if_pos h, pyInt_nonneg_eq_floor q h]
  · rw [if_neg h]
    have hq : 0 ≤ -q := by linarith [not_le.mp h]
    have h1 : pyInt (-q) = ⌊-q⌋ := pyInt_nonneg_eq_floor (-q) hq
    have h2 : pyInt (-q) = -(pyInt q) := by
      rw [pyInt, pyInt, Rat.neg_num, Rat.neg_den, Int.neg_tdiv]
    have := Int.floor_neg (a := q)
    omega

theorem pyInt_sub_abs_lt_one (q : Rat) : |(pyInt q : Rat) - q| < 1 := by
  rw [pyInt_eq]
  by_cases h : 0 ≤ q
  · rw [if_pos h, abs_sub_lt_iff]
    refine ⟨?_, ?_⟩ <;> linarith [Int.floor_le q, Int.lt_floor_add_one q]
  · rw [if_neg h, abs_sub_lt_iff]
    refine ⟨?_, ?_⟩ <;> linarith [Int.le_ceil q, Int.ceil_lt_add_one q]

theorem foldl_max_cons_out (xs : List Rat) : ∀ a b : Rat,
    xs.foldl max (max a b) = max a (xs.foldl max b) := by
  induction xs with
  | nil => intro a b; rfl
  | cons c xs ih =>
      intro a b
      simp only [List.foldl_cons, max_assoc, ih]

theorem amax_cons (x y : Rat) (xs : List Rat) :
    amax (x :: y :: xs) = max x (amax (y :: xs)) := by
  simp only [amax, List.foldl_cons, foldl_max_cons_out]

theorem argmaxIdx_lt_length (l : List Rat) (h : l ≠ []) : argmaxIdx l < l.length := by
  induction l with
  | nil => exact absurd rfl h
  | cons x xs ih =>
      cases xs with
      | nil => simp [argmaxIdx]
      | cons y ys =>
          by_cases hx : x < amax (y :: ys)
          · have h2 := ih (by simp)
            simp only [List.length_cons] at h2 ⊢
            simp only [argmaxIdx, if_pos hx]
            omega
          · simp [argmaxIdx, if_neg hx]

theorem getD_argmaxIdx (l : List Rat) (h : l ≠ []) : l.getD (argmaxIdx l) 0 = amax l := by
  induction l with
  | nil => exact absurd rfl h
  | cons x xs ih =>
      cases xs with
      | nil => simp [argmaxIdx, amax]
      | cons y ys =>
          by_cases hx : x < amax (y :: ys)
          · have h2 := ih (by simp)
            simp only [argmaxIdx, if_pos hx, List.getD_cons_succ, h2, amax_cons]
            exact (max_eq_right (le_of_lt hx)).symm
          · simp only [argmaxIdx, if_neg hx, List.getD_cons_zero, amax_cons]
            exact (max_eq_left (not_lt.mp hx)).symm

theorem getD_lt_amax_of_lt_argmaxIdx (l : List Rat) (j : Nat) (hj : j < argmaxIdx l) :
    l.getD j 0 < amax l := by
  induction l generalizing j with
  | nil => simp [argmaxIdx] at hj
  | cons x xs ih =>
      cases xs with
      | nil => simp [argmaxIdx] at hj
      | cons y ys =>
          by_cases hx : x < amax (y :: ys)
          · rw [argmaxIdx, if_pos hx] at hj
            rw [amax_cons, max_eq_right (le_of_lt hx)]
            cases j with
            | zero => simpa using hx
            | succ k =>
                rw [List.getD_cons_succ]
                exact ih k (by omega)
          · rw [argmaxIdx, if_neg hx] at hj
            omega

/-! Lemmas about the greedy suppression loop. -/

/-- The relation recorded by the greedy loop between an earlier kept box and
a later one: the later box overlaps the earlier one by at most the
threshold. -/
def keptRel (thr : Rat) (a b : Det) : Prop := overlap b a ≤ thr

theorem nmsGreedy_mem (thr : Rat) :
    ∀ (l kept : List Det) (x : Det), x ∈ nmsGreedy thr l kept → x ∈ kept ∨ x ∈ l := by
  intro l
  induction l with
  | nil => intro kept x hx; exact Or.inl hx
  | cons c rest ih =>
      intro kept x hx
      rw [nmsGreedy] at hx
      by_cases hc : (kept.all fun k => decide (overlap c k ≤ thr)) = true
      · rw [if_pos hc] at hx
        rcases ih _ x hx with h | h
        · rcases List.mem_append.mp h with h | h
          · exact Or.inl h
          · rw [List.mem_singleton] at h
            exact Or.inr (h ▸ List.mem_cons_self c rest)
        · exact Or.inr (List.mem_cons_of_mem c h)
      · rw [if_neg hc] at hx
        rcases ih _ x hx with h | h
        · exact Or.inl h
        · exact Or.inr (List.mem_cons_of_mem c h)

theorem nmsGreedy_sorted_pairwise (thr : Rat) :
    ∀ (l kept : List Det), List.Sorted scoreGe (kept ++ l) →
      List.Pairwise (keptRel thr) kept →
      List.Sorted scoreGe (nmsGreedy thr l kept) ∧
        List.Pairwise (keptRel thr) (nmsGreedy thr l kept) := by
  intro l
  induction l with
  | nil =>
      intro kept hs hp
      rw [nmsGreedy]
      exact ⟨by simpa using hs, hp⟩
  | cons c rest ih =>
      intro kept hs hp
      rw [nmsGreedy]
      by_cases hc : (kept.all fun k => decide (overlap c k ≤ thr)) = true
      · rw [if_pos hc]
        apply ih
        · simpa [List.append_assoc] using hs
        · rw [List.pairwise_append]
          refine ⟨hp, List.pairwise_singleton _ _, ?_⟩
          intro a ha b hb
          rw [List.mem_singleton] at hb
          subst hb
          have h2 := List.all_eq_true.mp hc a ha
          simpa [keptRel] using h2
      · rw [if_neg hc]
        apply ih
        · exact List.Pairwise.sublist ((List.sublist_cons_self c rest).append_left kept) hs
        · exact hp

theorem nmsGreedy_pairwise_eq (thr : Rat) :
    ∀ (l kept : List Det), List.Pairwise (keptRel thr) l →
      (∀ c ∈ l, ∀ k ∈ kept, keptRel thr k c) →
      nmsGreedy thr l kept = kept ++ l := by
  intro l
  induction l with
  | nil => intro kept _ _; simp [nmsGreedy]
  | cons c rest ih =>
      intro kept hp hck
      have hc : (kept.all fun k => decide (overlap c k ≤ thr)) = true := by
        rw [List.all_eq_true]
        intro k hk
        exact decide_eq_true (hck c (List.mem_cons_self c rest) k hk)
      rw [nmsGreedy, if_pos hc, ih (kept ++ [c]) hp.of_cons ?later]
      case later =>
        intro c' hc' k hk
        rcases List.mem_append.mp hk with hk | hk
        · exact hck c' (List.mem_cons_of_mem c hc') k hk
        · rw [List.mem_singleton] at hk
          subst hk
          exact (List.pairwise_cons.mp hp).1 c' hc'
      simp

theorem pyNMS_facts (s i : Rat) (l : List Det) :
    List.Sorted scoreGe (pyNMS s i l) ∧ List.Pairwise (keptRel i) (pyNMS s i l) ∧
      ∀ x ∈ pyNMS s i l, s < x.score ∧ x ∈ l := by
  have hsort : List.Sorted scoreGe
      (List.insertionSort scoreGe (l.filter fun c => decide (s < c.score))) :=
    List.sorted_insertionSort scoreGe _
  obtain ⟨h1, h2⟩ := nmsGreedy_sorted_pairwise i _ [] (by simpa using hsort) (by simp)
  refine ⟨h1, h2, ?_⟩
  intro x hx
  rcases nmsGreedy_mem i _ [] x hx with h | h
  · simp at h
  · have hmem : x ∈ l.filter fun c => decide (s < c.score) :=
      (List.perm_insertionSort scoreGe _).mem_iff.mp h
    have h3 := List.mem_filter.mp hmem
    exact ⟨by simpa using h3.2, h3.1⟩

/-! The index-level pipeline of the source assembles by positional lookup the
same values as the value-level suppression: lemmas commuting `map (getD dets)`
through each stage. -/

theorem map_getD_range (l : List Det) : (List.range l.length).map (getD l) = l := by
  induction l with
  | nil => rfl
  | cons a l ih =>
      rw [List.length_cons, List.range_succ_eq_map, List.map_cons, List.map_map]
      have h2 : (getD (a :: l)) ∘ Nat.succ = getD l := by
        funext i
        simp [getD]
      rw [h2, ih]
      rfl

theorem orderedInsert_map_getD (dets : List Det) (i : Nat) :
    ∀ l : List Nat, (List.orderedInsert (idxGe dets) i l).map (getD dets) =
      List.orderedInsert scoreGe (getD dets i) (l.map (getD dets)) := by
  intro l
  induction l with
  | nil => rfl
  | cons j l ih =>
      by_cases h : idxGe dets i j
      · have h' : scoreGe (getD dets i) (getD dets j) := h
        rw [List.orderedInsert, if_pos h, List.map_cons, List.map_cons,
          List.orderedInsert, if_pos h']
      · have h' : ¬scoreGe (getD dets i) (getD dets j) := h
        rw [List.orderedInsert, if_neg h, List.map_cons, List.map_cons,
          List.orderedInsert, if_neg h', ih]

theorem insertionSort_map_getD (dets : List Det) :
    ∀ l : List Nat, (List.insertionSort (idxGe dets) l).map (getD dets) =
      List.insertionSort scoreGe (l.map (getD dets)) := by
  intro l
  induction l with
  | nil => rfl
  | cons i l ih =>
      rw [List.insertionSort, List.map_cons, List.insertionSort, ← ih,
        orderedInsert_map_getD]

theorem nmsGreedyIdx_map_getD (thr : Rat) (dets : List Det) :
    ∀ (l kept : List Nat), (nmsGreedyIdx thr dets l kept).map (getD dets) =
      nmsGreedy thr (l.map (getD dets)) (kept.map (getD dets)) := by
  intro l
  induction l with
  | nil => intro kept; rw [nmsGreedyIdx, List.map_nil, nmsGreedy]
  | cons i rest ih =>
      intro kept
      have hcond : (kept.map (getD dets)).all (fun k => decide (overlap (getD dets i) k ≤ thr)) =
          kept.all fun k => decide (overlap (getD dets i) (getD dets k) ≤ thr) := by
        induction kept with
        | nil => rfl
        | cons k ks ihk => simp only [List.map_cons, List.all_cons, ihk]
      rw [nmsGreedyIdx, List.map_cons, nmsGreedy, hcond]
      by_cases hc : (kept.all fun k => decide (overlap (getD dets i) (getD dets k) ≤ thr)) = true
      · rw [if_pos hc, if_pos hc, ih, List.map_append, List.map_cons, List.map_nil]
      · rw [if_neg hc, if_neg hc, ih]

/-- The post-inference pipeline of `__call__` equals the value-level
composition: suppression applied to the already rescaled detections. -/
theorem call_pyNMS (conf iou scale : Rat) (rows : List Row) :
    call conf iou scale rows = pyNMS conf iou (decodeRescale conf scale rows) := by
  unfold call NMSBoxes pyNMS
  have hfun : (fun i => decide (conf < (getD (decodeRescale conf scale rows) i).score)) =
      ((fun c : Det => decide (conf < c.score)) ∘ getD (decodeRescale conf scale rows)) := rfl
  rw [nmsGreedyIdx_map_getD, insertionSort_map_getD, hfun, ← List.filter_map,
    map_getD_range, List.map_nil]

/-! Concrete evaluation helpers shared by witnesses. -/

theorem call_singleton (conf iou scale : Rat) (r : Row) (h : conf < amax r.scores) :
    call conf iou scale [r] = [emitDet scale r] := by
  rw [call_pyNMS, decodeRescale, if_pos (le_of_lt h), decodeRescale, pyNMS]
  have hf : ([emitDet scale r].filter fun c => decide (conf < c.score)) = [emitDet scale r] := by
    simp [emitDet, h]
  rw [hf]
  rfl

theorem emitDet_eval :
    emitDet (1/2) ⟨80, 80, 40, 40, [1/10, 2/10, 9/10, 1/10, 0, 0, 0]⟩ =
      ⟨120, 120, 80, 80, 9/10, 2⟩ := by
  simp only [emitDet]
  norm_num [pyInt_eq, amax, argmaxIdx, max_def]

/-! Claim theorems. -/

/-- C5: for every raw output row the decoder emits a candidate exactly when
the row's maximal class score reaches the confidence threshold — the emitted
list is the in-order filter of the rows mapped through the emission — and
the emitted class index (`argmaxIdx`) is the first index attaining the
maximum: it addresses the maximal score, and every strictly earlier index
holds a strictly smaller score. -/
theorem C5_decode_iff_argmax_order (conf scale : Rat) (rows : List Row) :
    decodeRescale conf scale rows =
      ((rows.filter fun r => decide (conf ≤ amax r.scores)).map (emitDet scale)) ∧
    ∀ s : List Rat, s ≠ [] →
      argmaxIdx s < s.length ∧ s.getD (argmaxIdx s) 0 = amax s ∧
        ∀ j < argmaxIdx s, s.getD j 0 < amax s := by
  constructor
  · induction rows with
    | nil => rfl
    | cons r rs ih =>
        by_cases h : conf ≤ amax r.scores
        · rw [decodeRescale, if_pos h, List.filter_cons_of_pos (by simpa using h),
            List.map_cons, ih]
        · rw [decodeRescale, if_neg h, List.filter_cons_of_neg (by simpa using h), ih]
  · intro s hs
    exact ⟨argmaxIdx_lt_length s hs, getD_argmaxIdx s hs,
      fun j hj => getD_lt_amax_of_lt_argmaxIdx s j hj⟩

/-- Witness for C5: the theorem applied to a concrete score list. -/
theorem C5_witness :
    argmaxIdx [1/10, 9/10] < ([1/10, 9/10] : List Rat).length ∧
      ([1/10, 9/10] : List Rat).getD (argmaxIdx [1/10, 9/10]) 0 = amax [1/10, 9/10] ∧
      ∀ j < argmaxIdx [1/10, 9/10], ([1/10, 9/10] : List Rat).getD j 0 < amax [1/10, 9/10] :=
  (C5_decode_iff_argmax_order (1/4) 1 []).2 [1/10, 9/10] (by simp)

/-- C6: for thresholds `t1 ≤ t2` in `(0,1)`, raising the confidence
threshold never increases the number of emitted candidates. -/
theorem C6_threshold_monotone (scale t1 t2 : Rat) (rows : List Row)
    (h0 : 0 < t1) (h12 : t1 ≤ t2) (h1 : t2 < 1) :
    (decodeRescale t2 scale rows).length ≤ (decodeRescale t1 scale rows).length := by
  induction rows with
  | nil => exact le_refl _
  | cons r rs ih =>
      by_cases h2 : t2 ≤ amax r.scores
      · rw [decodeRescale, if_pos h2, decodeRescale, if_pos (le_trans h12 h2)]
        simpa using ih
      · rw [decodeRescale, if_neg h2]
        by_cases h3 : t1 ≤ amax r.scores
        · rw [decodeRescale, if_pos h3]
          rw [List.length_cons]
          omega
        · rw [decodeRescale, if_neg h3]
          exact ih

/-- Witness for C6 at a concrete tensor and threshold pair. -/
theorem C6_witness :
    (decodeRescale (1/2) 1 [⟨0, 0, 2, 2, [2/5]⟩]).length ≤
      (decodeRescale (1/4) 1 [⟨0, 0, 2, 2, [2/5]⟩]).length :=
  C6_threshold_monotone 1 (1/4) (1/2) [⟨0, 0, 2, 2, [2/5]⟩]
    (by norm_num) (by norm_num) (by norm_num)

/-- C7: the NMS filter is idempotent — applied to its own output, for any
score and IoU thresholds, it returns that output unchanged. -/
theorem C7_nms_idempotent (l : List Det) (scoreThr iouThr : Rat) :
    pyNMS scoreThr iouThr (pyNMS scoreThr iouThr l) = pyNMS scoreThr iouThr l := by
  obtain ⟨hsorted, hpair, hmem⟩ := pyNMS_facts scoreThr iouThr l
  have hfilter : ((pyNMS scoreThr iouThr l).filter fun c => decide (scoreThr < c.score)) =
      pyNMS scoreThr iouThr l := by
    rw [List.filter_eq_self]
    intro a ha
    exact decide_eq_true (hmem a ha).1
  rw [pyNMS, hfilter, hsorted.insertionSort_eq,
    nmsGreedy_pairwise_eq iouThr _ [] hpair (by intro c _ k hk; simp at hk),
    List.nil_append]

/-- C10: every detection in the final pipeline output scores at least the
confidence threshold and is, with all its fields unchanged, one of the
decoded candidates: suppression and assembly select a subset. -/
theorem C10_subset_invariant (conf iou scale : Rat) (rows : List Row) (d : Det)
    (hd : d ∈ call conf iou scale rows) :
    conf ≤ d.score ∧ d ∈ decodeRescale conf scale rows := by
  rw [call_pyNMS] at hd
  obtain ⟨-, -, hmem⟩ := pyNMS_facts conf iou (decodeRescale conf scale rows)
  obtain ⟨h1, h2⟩ := hmem d hd
  exact ⟨le_of_lt h1, h2⟩

/-- Witness for C10 on a concrete one-detection run. -/
theorem C10_witness :
    (1 : Rat)/4 ≤ (⟨120, 120, 80, 80, 9/10, 2⟩ : Det).score ∧
      (⟨120, 120, 80, 80, 9/10, 2⟩ : Det) ∈
        decodeRescale (1/4) (1/2) [⟨80, 80, 40, 40, [1/10, 2/10, 9/10, 1/10, 0, 0, 0]⟩] :=
  C10_subset_invariant (1/4) (7/10) (1/2)
    [⟨80, 80, 40, 40, [1/10, 2/10, 9/10, 1/10, 0, 0, 0]⟩] ⟨120, 120, 80, 80, 9/10, 2⟩
    (by
      rw [call_singleton _ _ _ _ (by norm_num [amax, max_def]), emitDet_eval]
      exact List.mem_singleton_self _)

/-- C1: the end-to-end scenario — the letterbox of a `320 x 160` source onto
a `160 x 160` canvas produces scale `1/2`, and a single raw row with box
`(cx=80, cy=80, w=40, h=40)` whose class scores peak at value `9/10` first
attained at index `2`, processed at that scale with confidence threshold
`1/4` and IoU threshold `7/10`, yields exactly one detection
`(left=120, top=120, width=80, height=80, score=9/10, class=2)`. -/
theorem C1_end_to_end (scores : List Rat) (hmax : amax scores = 9/10)
    (harg : argmaxIdx scores = 2) :
    scaleOf (resize res0 img0 320 160 160) = 1/2 ∧
      call (1/4) (7/10) (1/2) [⟨80, 80, 40, 40, scores⟩] =
        [⟨120, 120, 80, 80, 9/10, 2⟩] := by
  constructor
  · norm_num [resize, scaleOf]
  · rw [call_singleton _ _ _ _ (by rw [hmax]; norm_num)]
    simp only [emitDet, hmax, harg]
    norm_num [pyInt_eq]

/-- Witness for C1 at a concrete seven-class score row. -/
theorem C1_witness :
    scaleOf (resize res0 img0 320 160 160) = 1/2 ∧
      call (1/4) (7/10) (1/2) [⟨80, 80, 40, 40, [1/10, 2/10, 9/10, 1/10, 0, 0, 0]⟩] =
        [⟨120, 120, 80, 80, 9/10, 2⟩] :=
  C1_end_to_end [1/10, 2/10, 9/10, 1/10, 0, 0, 0]
    (by norm_num [amax, max_def]) (by norm_num [argmaxIdx, amax, max_def])

/-- C3 (amended): the implemented pipeline applies NMS after rescaling, not
before — it equals the composition of the value-level `NMSBoxes` model with
the decode-and-rescale stage, suppression operating on the truncated
original-frame boxes. -/
theorem C3_pipeline_is_nms_after_rescale (conf iou scale : Rat) (rows : List Row) :
    call conf iou scale rows = pyNMS conf iou (decodeRescale conf scale rows) :=
  call_pyNMS conf iou scale rows

/-- Counterexample to C3 as stated: on two overlapping rows at `scale = 1`,
the canvas-space composition `rescale(nms(decode(raw)))` keeps a detection
that the implemented pipeline suppresses, because truncation before NMS
makes the two boxes identical. -/
theorem C3_counterexample :
    (⟨1, 0, 2, 2, 4/5, 0⟩ : Det) ∈
        specPipeline (1/4) (7/10) 1 [⟨2, 1, 2, 2, [9/10]⟩, ⟨29/10, 1, 2, 2, [4/5]⟩] ∧
      (⟨1, 0, 2, 2, 4/5, 0⟩ : Det) ∉
        call (1/4) (7/10) 1 [⟨2, 1, 2, 2, [9/10]⟩, ⟨29/10, 1, 2, 2, [4/5]⟩] := by
  constructor
  · norm_num [specPipeline, decodeSpec, amax, specNMS, List.insertionSort,
      List.orderedInsert, candGe, specNMSGreedy, specOverlap, specRescale,
      min_def, max_def]
    rfl
  · rw [call_pyNMS]
    norm_num [decodeRescale, amax, emitDet, pyInt_eq, pyNMS, List.insertionSort,
      List.orderedInsert, scoreGe, nmsGreedy, overlap, area, interArea,
      min_def, max_def]

/-- Counterexample to C2 as stated: a kept candidate with `cx = 1, w = 3` at
`scale = 1` has left edge `-1/2` before rounding; the code truncates it
toward zero, to `0`, while flooring toward negative infinity would give
`-1`. -/
theorem C2_counterexample :
    (decodeRescale (1/4) 1 [⟨1, 1, 3, 3, [9/10]⟩]).map Det.left ≠
      [⌊(((1 : Rat) - 3 / 2) / 1 : Rat)⌋] := by
  norm_num [decodeRescale, amax, emitDet, pyInt_eq, Int.ceil_neg]

/-- C2 (amended): for every kept candidate and positive scale the rescaler
rounds each of the four box quantities by truncation toward zero — floor for
a nonnegative quotient, ceiling for a negative one — and copies the maximal
score and the argmax class index unchanged from the source row. -/
theorem C2_rescaler_truncates (conf scale : Rat) (rows : List Row) (hs : 0 < scale)
    (d : Det) (hd : d ∈ decodeRescale conf scale rows) :
    ∃ r ∈ rows, conf ≤ amax r.scores ∧
      d.left = (if 0 ≤ (r.cx - r.w / 2) / scale then ⌊(r.cx - r.w / 2) / scale⌋
        else ⌈(r.cx - r.w / 2) / scale⌉) ∧
      d.top = (if 0 ≤ (r.cy - r.h / 2) / scale then ⌊(r.cy - r.h / 2) / scale⌋
        else ⌈(r.cy - r.h / 2) / scale⌉) ∧
      d.width = (if 0 ≤ r.w / scale then ⌊r.w / scale⌋ else ⌈r.w / scale⌉) ∧
      d.height = (if 0 ≤ r.h / scale then ⌊r.h / scale⌋ else ⌈r.h / scale⌉) ∧
      d.score = amax r.scores ∧ d.classId = argmaxIdx r.scores := by
  induction rows with
  | nil => simp [decodeRescale] at hd
  | cons r rs ih =>
      rw [decodeRescale] at hd
      by_cases h : conf ≤ amax r.scores
      · rw [if_pos h] at hd
        rcases List.mem_cons.mp hd with hd2 | hd2
        · refine ⟨r, List.mem_cons_self r rs, h, ?_⟩
          subst hd2
          simp [emitDet, pyInt_eq]
        · obtain ⟨r', hr', hrest⟩ := ih hd2
          exact ⟨r', List.mem_cons_of_mem r hr', hrest⟩
      · rw [if_neg h] at hd
        obtain ⟨r', hr', hrest⟩ := ih hd
        exact ⟨r', List.mem_cons_of_mem r hr', hrest⟩

/-- Witness for the amended C2 on the concrete negative-edge candidate. -/
theorem C2_witness :
    ∃ r ∈ [(⟨1, 1, 3, 3, [9/10]⟩ : Row)], (1 : Rat)/4 ≤ amax r.scores ∧
      (emitDet 1 ⟨1, 1, 3, 3, [9/10]⟩).left =
        (if 0 ≤ (r.cx - r.w / 2) / 1 then ⌊(r.cx - r.w / 2) / 1⌋
          else ⌈(r.cx - r.w / 2) / 1⌉) ∧
      (emitDet 1 ⟨1, 1, 3, 3, [9/10]⟩).top =
        (if 0 ≤ (r.cy - r.h / 2) / 1 then ⌊(r.cy - r.h / 2) / 1⌋
          else ⌈(r.cy - r.h / 2) / 1⌉) ∧
      (emitDet 1 ⟨1, 1, 3, 3, [9/10]⟩).width =
        (if 0 ≤ r.w / 1 then ⌊r.w / 1⌋ else ⌈r.w / 1⌉) ∧
      (emitDet 1 ⟨1, 1, 3, 3, [9/10]⟩).height =
        (if 0 ≤ r.h / 1 then ⌊r.h / 1⌋ else ⌈r.h / 1⌉) ∧
      (emitDet 1 ⟨1, 1, 3, 3, [9/10]⟩).score = amax r.scores ∧
      (emitDet 1 ⟨1, 1, 3, 3, [9/10]⟩).classId = argmaxIdx r.scores :=
  C2_rescaler_truncates (1/4) 1 [⟨1, 1, 3, 3, [9/10]⟩] (by norm_num)
    (emitDet 1 ⟨1, 1, 3, 3, [9/10]⟩)
    (by norm_num [decodeRescale, amax])

/-- C4: for positive dimensions the letterbox transform follows the claimed
formulas — aspect quotient `H/W`; when it exceeds `1` the height is fixed at
`input_size` and the width floored from `input_size` divided by the
quotient, otherwise the width is fixed and the height floored from
`input_size` times the quotient; `scale = h/H` — and it pastes the resampled
image into the top-left corner of a zero-filled square canvas, every pixel
outside the pasted region remaining zero. -/
theorem C4_letterbox (resample : Image → Nat → Nat → Image) (img : Image)
    (H W s : Nat) (hH : 0 < H) (hW : 0 < W) (hs : 0 < s) :
    ∃ hh ww,
      (1 < (H : Rat) / W → hh = s ∧ ww = (⌊(s : Rat) / ((H : Rat) / W)⌋).toNat) ∧
      (¬1 < (H : Rat) / W → ww = s ∧ hh = (⌊(s : Rat) * ((H : Rat) / W)⌋).toNat) ∧
      ∃ L, resize resample img H W s = .ok L ∧ L.scale = (hh : Rat) / H ∧
        (∀ i j c, hh ≤ i ∨ ww ≤ j → L.canvas i j c = 0) ∧
        (∀ i j c, i < hh → j < ww → L.canvas i j c = resample img ww hh i j c) := by
  have hW0 : ¬(W = 0) := Nat.pos_iff_ne_zero.mp hW
  have hH0 : ¬(H = 0) := Nat.pos_iff_ne_zero.mp hH
  refine ⟨if 1 < (H : Rat) / W then s else (⌊(s : Rat) * ((H : Rat) / W)⌋).toNat,
    if 1 < (H : Rat) / W then (⌊(s : Rat) / ((H : Rat) / W)⌋).toNat else s,
    ?_, ?_, ?_⟩
  · intro h
    rw [if_pos h, if_pos h]
    exact ⟨rfl, rfl⟩
  · intro h
    rw [if_neg h, if_neg h]
    exact ⟨rfl, rfl⟩
  · refine ⟨⟨fun i j c =>
      if i < (if 1 < (H : Rat) / W then s else (⌊(s : Rat) * ((H : Rat) / W)⌋).toNat) ∧
          j < (if 1 < (H : Rat) / W then (⌊(s : Rat) / ((H : Rat) / W)⌋).toNat else s) then
        resample img
          (if 1 < (H : Rat) / W then (⌊(s : Rat) / ((H : Rat) / W)⌋).toNat else s)
          (if 1 < (H : Rat) / W then s else (⌊(s : Rat) * ((H : Rat) / W)⌋).toNat) i j c
      else 0,
      ((if 1 < (H : Rat) / W then s else (⌊(s : Rat) * ((H : Rat) / W)⌋).toNat : Nat) : Rat) / H⟩,
      ?_, rfl, ?_, ?_⟩
    · simp only [resize, if_neg hW0, if_neg hH0]
    · intro i j c hout
      simp only []
      rw [if_neg]
      rcases hout with hout | hout
      · intro hcontra
        omega
      · intro hcontra
        omega
    · intro i j c hi hj
      simp only []
      rw [if_pos ⟨hi, hj⟩]

/-- Witness for C4 at `H = 320, W = 160, input_size = 160`. -/
theorem C4_witness :
    ∃ hh ww,
      (1 < (320 : Rat) / (160 : Nat) →
        hh = 160 ∧ ww = (⌊(160 : Rat) / ((320 : Rat) / (160 : Nat))⌋).toNat) ∧
      (¬1 < (320 : Rat) / (160 : Nat) →
        ww = 160 ∧ hh = (⌊(160 : Rat) * ((320 : Rat) / (160 : Nat))⌋).toNat) ∧
      ∃ L, resize res0 img0 320 160 160 = .ok L ∧ L.scale = (hh : Rat) / (320 : Nat) ∧
        (∀ i j c, hh ≤ i ∨ ww ≤ j → L.canvas i j c = 0) ∧
        (∀ i j c, i < hh → j < ww → L.canvas i j c = res0 img0 ww hh i j c) :=
  C4_letterbox res0 img0 320 160 160 (by norm_num) (by norm_num) (by norm_num)

/-- Counterexample to C8 as stated: for the positive-dimension input
`H = 1, W = 2, input_size = 1` the resized height floors to `0`, so the
scale the transform produces is `0`, not positive. -/
theorem C8_counterexample : ¬0 < scaleOf (resize res0 img0 1 2 1) := by
  norm_num [resize, scaleOf]

/-- C8 (amended): when additionally `W ≤ input_size * H` (the resized height
is at least one pixel), the produced scale is positive, and dividing any
canvas coordinate by it with the code's truncation reproduces the exact
quotient within one original-space pixel — equivalently, re-multiplying the
truncated quotient by the scale reproduces the canvas coordinate to within
one scale unit. -/
theorem C8_scale_invertible (resample : Image → Nat → Nat → Image) (img : Image)
    (H W s : Nat) (hH : 0 < H) (hW : 0 < W) (hs : 0 < s) (hcond : W ≤ s * H) :
    ∃ L, resize resample img H W s = .ok L ∧ 0 < L.scale ∧
      ∀ c : Rat, |(pyInt (c / L.scale) : Rat) - c / L.scale| < 1 ∧
        |(pyInt (c / L.scale) : Rat) * L.scale - c| < L.scale := by
  have hW0 : ¬(W = 0) := Nat.pos_iff_ne_zero.mp hW
  have hH0 : ¬(H = 0) := Nat.pos_iff_ne_zero.mp hH
  have hHQ : (0 : Rat) < (H : Rat) := by exact_mod_cast hH
  have hWQ : (0 : Rat) < (W : Rat) := by exact_mod_cast hW
  have hhv : (0 : Nat) <
      (if 1 < (H : Rat) / W then s else (⌊(s : Rat) * ((H : Rat) / W)⌋).toNat) := by
    by_cases hasp : 1 < (H : Rat) / W
    · rw [if_pos hasp]
      exact hs
    · rw [if_neg hasp]
      have h1 : (1 : Rat) ≤ (s : Rat) * ((H : Rat) / W) := by
        rw [mul_div_assoc']
        rw [le_div_iff₀ hWQ, one_mul]
        exact_mod_cast hcond
      have h2 : (1 : Int) ≤ ⌊(s : Rat) * ((H : Rat) / W)⌋ := by
        rw [Int.le_floor]
        exact_mod_cast h1
      omega
  have hscale : (0 : Rat) <
      ((if 1 < (H : Rat) / W then s else (⌊(s : Rat) * ((H : Rat) / W)⌋).toNat : Nat) : Rat) / H := by
    apply div_pos _ hHQ
    exact_mod_cast hhv
  refine ⟨⟨fun i j c =>
      if i < (if 1 < (H : Rat) / W then s else (⌊(s : Rat) * ((H : Rat) / W)⌋).toNat) ∧
          j < (if 1 < (H : Rat) / W then (⌊(s : Rat) / ((H : Rat) / W)⌋).toNat else s) then
        resample img
          (if 1 < (H : Rat) / W then (⌊(s : Rat) / ((H : Rat) / W)⌋).toNat else s)
          (if 1 < (H : Rat) / W then s else (⌊(s : Rat) * ((H : Rat) / W)⌋).toNat) i j c
      else 0,
      ((if 1 < (H : Rat) / W then s else (⌊(s : Rat) * ((H : Rat) / W)⌋).toNat : Nat) : Rat) / H⟩,
      ?_, hscale, ?_⟩
  · simp only [resize, if_neg hW0, if_neg hH0]
  · intro c
    set sc : Rat :=
      ((if 1 < (H : Rat) / W then s else (⌊(s : Rat) * ((H : Rat) / W)⌋).toNat : Nat) : Rat) / H
      with hsc
    have h1 := pyInt_sub_abs_lt_one (c / sc)
    refine ⟨h1, ?_⟩
    have hne : sc ≠ 0 := ne_of_gt hscale
    have hmulc : c / sc * sc = c := div_mul_cancel₀ c hne
    calc |(pyInt (c / sc) : Rat) * sc - c|
        = |((pyInt (c / sc) : Rat) - c / sc) * sc| := by rw [sub_mul, hmulc]
      _ = |(pyInt (c / sc) : Rat) - c / sc| * |sc| := abs_mul _ _
      _ = |(pyInt (c / sc) : Rat) - c / sc| * sc := by rw [abs_of_pos hscale]
      _ < 1 * sc := by exact mul_lt_mul_of_pos_right h1 hscale
      _ = sc := one_mul sc

/-- Witness for the amended C8 at `H = 320, W = 160, input_size = 160`. -/
theorem C8_witness :
    ∃ L, resize res0 img0 320 160 160 = .ok L ∧ 0 < L.scale ∧
      ∀ c : Rat, |(pyInt (c / L.scale) : Rat) - c / L.scale| < 1 ∧
        |(pyInt (c / L.scale) : Rat) * L.scale - c| < L.scale :=
  C8_scale_invertible res0 img0 320 160 160 (by norm_num) (by norm_num)
    (by norm_num) (by norm_num)

/-- Counterexample to C9 as stated: at a zero-height input the transform
fails with the division-by-zero error, not with `InvalidInput`. -/
theorem C9_counterexample :
    resize res0 img0 0 5 160 = .error .zeroDivision ∧
      resize res0 img0 0 5 160 ≠ .error .invalidInput := by
  have h1 : resize res0 img0 0 5 160 = .error .zeroDivision := by
    rw [resize, if_neg (by norm_num), if_pos rfl]
  refine ⟨h1, ?_⟩
  rw [h1]
  intro hcontra
  have h2 : Err.zeroDivision = Err.invalidInput := by
    injection hcontra
  exact Err.noConfusion h2

/-- C9 (amended): no `InvalidInput` precondition check exists — a zero
source dimension makes the transform itself fail with the unguarded
division-by-zero error at the moment it is invoked on the frame: at the
aspect computation when `W = 0`, at the scale computation when `H = 0`. -/
theorem C9_zero_dim_zero_division (resample : Image → Nat → Nat → Image)
    (img : Image) (H W s : Nat) (h : H = 0 ∨ W = 0) :
    resize resample img H W s = .error .zeroDivision := by
  rcases h with h | h
  · subst h
    by_cases hW : W = 0
    · subst hW
      rw [resize, if_pos rfl]
    · rw [resize, if_neg hW, if_pos rfl]
  · subst h
    rw [resize, if_pos rfl]

/-- Witness for the amended C9 at a concrete zero-height input. -/
theorem C9_witness : resize res0 img0 0 7 160 = .error .zeroDivision :=
  C9_zero_dim_zero_division res0 img0 0 7 160 (Or.inl rfl)

end Yolo
